import Mathlib

/-
Verification of the resource / resource-detector module of an OpenTelemetry
Python SDK (file opentelemetry-sdk/src/opentelemetry/sdk/resources/__init__.py).

Shallow embedding conventions:
  * Python strings are modelled as lists of characters (PyStr), so that all
    string operations (split, strip, lexicographic comparison) are structurally
    recursive and evaluate inside the kernel.
  * Python dicts (insertion ordered, unique keys) are modelled as association
    lists in insertion order.  Assigning to an existing key keeps its position
    (dictSet); assigning a fresh key appends.  Lists produced by actual dict
    operations always have pairwise distinct keys; theorems carry that
    invariant as a nodupKeys hypothesis where it matters.
  * Attribute values: the source type is Union[str, bool, int, float].  The
    embedding covers the str, bool and int cases; Python `==` on these values
    (which identifies True with 1 and False with 0) is modelled by pyEqVal.
  * Raised exceptions are modelled with Except; the concurrent fan-out of
    get_aggregated_resources is modelled by its observable behaviour: each
    detector is a deterministic outcome (a Resource or a raised error, a
    timeout being one kind of raised error), and results are folded in
    submission order, exactly as the source awaits the futures in list order.
  * The process environment variable OTEL_RESOURCE_ATTRIBUTES and the
    externally looked-up package version string are passed as parameters.
-/

/-- Python strings as lists of characters. -/
abbrev PyStr := List Char

/-- The label-value domain of resource attributes (LabelValue in the source),
restricted to the str / bool / int cases. -/
inductive LabelValue where
  | vStr (s : PyStr)
  | vBool (b : Bool)
  | vInt (n : Int)
deriving DecidableEq, Repr

/-- Python `==` on label values: True == 1 and False == 0, numbers never equal
strings. -/
def pyEqVal : LabelValue → LabelValue → Bool
  | .vStr a, .vStr b => a = b
  | .vBool a, .vBool b => a = b
  | .vInt a, .vInt b => a = b
  | .vBool a, .vInt b => (if a then (1 : Int) else 0) = b
  | .vInt a, .vBool b => a = (if b then (1 : Int) else 0)
  | _, _ => false

/-- A Python dict from string keys to label values, in insertion order. -/
abbrev Attributes := List (PyStr × LabelValue)

/-- Dict lookup: the entry of the (unique) matching key. -/
def dictGet? (m : Attributes) (k : PyStr) : Option LabelValue :=
  (m.find? (fun p => p.1 = k)).map Prod.snd

/-- Dict membership test (`k in d`). -/
def dictContains (m : Attributes) (k : PyStr) : Bool :=
  m.any (fun p => p.1 = k)

/-- Dict assignment `d[k] = v`: replace in place if the key is present
(keeping its position, as Python dicts do), else append. -/
def dictSet (m : Attributes) (k : PyStr) (v : LabelValue) : Attributes :=
  if dictContains m k then m.map (fun p => if p.1 = k then (k, v) else p)
  else m ++ [(k, v)]

/-- The keys of a dict, in insertion order. -/
def dictKeys (m : Attributes) : List PyStr := m.map Prod.fst

/-- The unique-keys invariant every real Python dict satisfies. -/
def nodupKeys (m : Attributes) : Prop := (dictKeys m).Nodup

instance (m : Attributes) : Decidable (nodupKeys m) := by
  unfold nodupKeys; infer_instance

/-- Python dict equality `d1 == d2`: same keys and Python-equal values. -/
def dictEqPy (a b : Attributes) : Bool :=
  (a.all (fun p =>
    match dictGet? b p.1 with
    | some w => pyEqVal p.2 w
    | none => false)) &&
  (b.all (fun p => (dictGet? a p.1).isSome))

/-- The Resource class: wraps its private attribute dict.  The constructor's
`attributes.copy()` is the identity at the value level (the heap model below
makes the copying observable). -/
structure Resource where
  _attributes : Attributes
deriving DecidableEq, Repr

/-- The `attributes` property returns (a copy of) the internal dict. -/
def Resource.attributes (self : Resource) : Attributes := self._attributes

/-- One iteration of the merge loop body:
`if key not in merged_attributes or merged_attributes[key] == "": merged_attributes[key] = value`. -/
def mergeStep (merged : Attributes) (kv : PyStr × LabelValue) : Attributes :=
  match dictGet? merged kv.1 with
  | none => dictSet merged kv.1 kv.2
  | some w => if pyEqVal w (.vStr []) then dictSet merged kv.1 kv.2 else merged

/-- The dict computed by Resource.merge: start from a copy of self's
attributes and fold the loop body over other's items in insertion order. -/
def mergeAttrs (selfA otherA : Attributes) : Attributes :=
  otherA.foldl mergeStep selfA

/-- Resource.merge from the source: build the merged dict and wrap it in a
new Resource. -/
def Resource.merge (self other : Resource) : Resource :=
  ⟨mergeAttrs self.attributes other._attributes⟩

/-- The module-level `_EMPTY_RESOURCE = Resource({})`. -/
def _EMPTY_RESOURCE : Resource := ⟨[]⟩

def TELEMETRY_SDK_LANGUAGE : PyStr := "telemetry.sdk.language".toList
def TELEMETRY_SDK_NAME : PyStr := "telemetry.sdk.name".toList
def TELEMETRY_SDK_VERSION : PyStr := "telemetry.sdk.version".toList

/-- The module-level `_DEFAULT_RESOURCE`, parameterised by the externally
looked-up distribution version string. -/
def _DEFAULT_RESOURCE (sdkVersion : PyStr) : Resource :=
  ⟨[(TELEMETRY_SDK_LANGUAGE, .vStr "python".toList),
    (TELEMETRY_SDK_NAME, .vStr "opentelemetry".toList),
    (TELEMETRY_SDK_VERSION, .vStr sdkVersion)]⟩

/-- Resource.create: the default resource itself on an empty collection,
otherwise the default resource merged with a fresh Resource. -/
def Resource.create (sdkVersion : PyStr) (attributes : Attributes) : Resource :=
  if attributes.isEmpty then _DEFAULT_RESOURCE sdkVersion
  else (_DEFAULT_RESOURCE sdkVersion).merge ⟨attributes⟩

/-- Resource.create_empty returns the module-level empty resource. -/
def Resource.create_empty : Resource := _EMPTY_RESOURCE

/-- Resource.__eq__ (the other operand is statically a Resource here, so the
isinstance test always passes). -/
def Resource.beq (self other : Resource) : Bool :=
  dictEqPy self._attributes other._attributes

/- ----------------------------------------------------------------- -/
/- Environment detector                                              -/
/- ----------------------------------------------------------------- -/

/-- Python exceptions relevant to this module.  valueError stands for the
ValueError raised by tuple unpacking; detectorError models an arbitrary
exception raised inside a user detector (a timeout of the future is one
such exception). -/
inductive PyError where
  | valueError
  | detectorError (code : Nat)
deriving DecidableEq, Repr

/-- Python whitespace characters recognised by str.strip (ASCII range). -/
def isPySpace (c : Char) : Bool :=
  c = ' ' || c = '\t' || c = '\n' || c = '\r' || c = '\x0b' || c = '\x0c'

/-- Drop leading whitespace. -/
def stripLeft : PyStr → PyStr
  | [] => []
  | c :: rest => if isPySpace c then stripLeft rest else c :: rest

/-- Python str.strip(): drop leading and trailing whitespace. -/
def pyStrip (s : PyStr) : PyStr :=
  ((stripLeft s).reverse |> stripLeft).reverse

/-- Python str.split(sep) for a one-character separator: split on every
occurrence; the empty string yields [""]. -/
def splitOnChar (sep : Char) : PyStr → List PyStr
  | [] => [[]]
  | c :: rest =>
    match splitOnChar sep rest with
    | [] => [[]]
    | t :: ts => if c = sep then [] :: t :: ts else (c :: t) :: ts

/-- One step of the dict comprehension in OTELResourceDetector.detect:
`item.split("=")` must unpack into exactly (key, value) — any other number
of parts raises ValueError — then the stripped pair is assigned. -/
def parseEnvItem (acc : Attributes) (item : PyStr) : Except PyError Attributes :=
  match splitOnChar '=' item with
  | [key, value] => .ok (dictSet acc (pyStrip key) (.vStr (pyStrip value)))
  | _ => .error .valueError

/-- The dict comprehension over all comma-separated items. -/
def envResourceMap (items : List PyStr) : Except PyError Attributes :=
  items.foldlM parseEnvItem []

/-- OTELResourceDetector.detect, as a function of the value of the
OTEL_RESOURCE_ATTRIBUTES environment variable (none = unset). -/
def OTELResourceDetector.detect (env : Option PyStr) : Except PyError Resource :=
  match env with
  | none => .ok ⟨[]⟩
  | some s =>
    if s = [] then .ok ⟨[]⟩
    else (envResourceMap (splitOnChar ',' s)).map Resource.mk

/- ----------------------------------------------------------------- -/
/- Aggregation                                                       -/
/- ----------------------------------------------------------------- -/

deriving instance DecidableEq for Except

/-- A detector as the aggregator observes it: its raise_on_error flag and the
deterministic outcome of its detect() call (a timeout while waiting on the
future surfaces as a raised error, i.e. an .error outcome). -/
structure ResourceDetector where
  raise_on_error : Bool
  detect : Except PyError Resource
deriving DecidableEq, Repr

/-- The future-awaiting loop of get_aggregated_resources.  The source awaits
the futures in submission order (never completion order); on an .error
outcome a raise_on_error detector re-raises it (the assignment performed by
the `finally` block on the local variable is unobservable), otherwise the
failure is logged and _EMPTY_RESOURCE is merged instead. -/
def aggregateDetectors : List ResourceDetector → Resource → Except PyError Resource
  | [], final_resource => .ok final_resource
  | d :: rest, final_resource =>
    match d.detect with
    | .ok detected => aggregateDetectors rest (final_resource.merge detected)
    | .error ex =>
      if d.raise_on_error then .error ex
      else aggregateDetectors rest (final_resource.merge _EMPTY_RESOURCE)

/-- get_aggregated_resources: seed with the initial resource (or the empty
resource — a Resource object is always truthy in Python, so `or` only
replaces None), prepend the built-in environment detector (constructed with
the default raise_on_error=False), and fold the outcomes in list order. -/
def get_aggregated_resources (env : Option PyStr)
    (detectors : List ResourceDetector) (initial_resource : Option Resource) :
    Except PyError Resource :=
  aggregateDetectors
    (⟨false, OTELResourceDetector.detect env⟩ :: detectors)
    (initial_resource.getD _EMPTY_RESOURCE)

/- ----------------------------------------------------------------- -/
/- Canonical serialization and hashing                               -/
/- ----------------------------------------------------------------- -/

/-- Python string comparison: lexicographic by code point. -/
def lexLe : PyStr → PyStr → Bool
  | [], _ => true
  | _ :: _, [] => false
  | a :: as, b :: bs => if a.toNat = b.toNat then lexLe as bs else decide (a.toNat < b.toNat)

theorem lexLe_total : ∀ a b : PyStr, lexLe a b = true ∨ lexLe b a = true := by
  intro a
  induction a with
  | nil => intro b; left; rfl
  | cons x xs ih =>
    intro b
    cases b with
    | nil => right; rfl
    | cons y ys =>
      by_cases hxy : x.toNat = y.toNat
      · rcases ih ys with h | h
        · left; simp [lexLe, hxy, h]
        · right; simp [lexLe, hxy.symm, h]
      · rcases Nat.lt_or_gt_of_ne hxy with hlt | hgt
        · left; simp [lexLe, hxy, hlt]
        · right; have : ¬ y.toNat = x.toNat := fun h => hxy h.symm
          simp [lexLe, this, hgt]

theorem char_toNat_inj {a b : Char} (h : a.toNat = b.toNat) : a = b := by
  apply Char.ext
  unfold Char.toNat at h
  exact UInt32.toNat.inj h

theorem lexLe_antisymm : ∀ a b : PyStr, lexLe a b = true → lexLe b a = true → a = b := by
  intro a
  induction a with
  | nil =>
    intro b _ hba
    cases b with
    | nil => rfl
    | cons y ys => simp [lexLe] at hba
  | cons x xs ih =>
    intro b hab hba
    cases b with
    | nil => simp [lexLe] at hab
    | cons y ys =>
      by_cases hxy : x.toNat = y.toNat
      · have hx : x = y := char_toNat_inj hxy
        simp only [lexLe, hxy, if_pos] at hab
        simp only [lexLe, hxy.symm, if_pos] at hba
        rw [hx, ih ys hab hba]
      · have hyx : ¬ y.toNat = x.toNat := fun h => hxy h.symm
        simp only [lexLe, hxy, if_neg, if_false, decide_eq_true_eq] at hab
        simp only [lexLe, hyx, if_neg, if_false, decide_eq_true_eq] at hba
        exact absurd (Nat.lt_trans hab hba) (Nat.lt_irrefl _)

theorem lexLe_trans : ∀ a b c : PyStr,
    lexLe a b = true → lexLe b c = true → lexLe a c = true := by
  intro a
  induction a with
  | nil => intro b c _ _; rfl
  | cons x xs ih =>
    intro b c hab hbc
    cases b with
    | nil => simp [lexLe] at hab
    | cons y ys =>
      cases c with
      | nil => simp [lexLe] at hbc
      | cons z zs =>
        by_cases hxy : x.toNat = y.toNat
        · simp only [lexLe, hxy, if_pos] at hab
          by_cases hyz : y.toNat = z.toNat
          · simp only [lexLe, hyz, if_pos] at hbc
            have hxz : x.toNat = z.toNat := hxy.trans hyz
            simp [lexLe, hxz, ih ys zs hab hbc]
          · simp only [lexLe, hyz, if_neg, if_false, decide_eq_true_eq] at hbc
            have hxz : ¬ x.toNat = z.toNat := by rw [hxy]; exact hyz
            simp [lexLe, hxz, hxy ▸ hbc]
        · simp only [lexLe, hxy, if_neg, if_false, decide_eq_true_eq] at hab
          by_cases hyz : y.toNat = z.toNat
          · have hxz : ¬ x.toNat = z.toNat := by rw [← hyz]; exact hxy
            simp [lexLe, hxz, hyz ▸ hab]
          · simp only [lexLe, hyz, if_neg, if_false, decide_eq_true_eq] at hbc
            have hlt : x.toNat < z.toNat := Nat.lt_trans hab hbc
            have hxz : ¬ x.toNat = z.toNat := Nat.ne_of_lt hlt
            simp [lexLe, hxz, hlt]

/-- The proposition form of lexLe, used as the sorting relation. -/
def keyLe (a b : PyStr) : Prop := lexLe a b = true

instance : DecidableRel keyLe := fun a b => by
  unfold keyLe; infer_instance

instance : IsTotal PyStr keyLe := ⟨fun a b => lexLe_total a b⟩

instance : IsTrans PyStr keyLe := ⟨fun a b c => lexLe_trans a b c⟩

instance : IsAntisymm PyStr keyLe := ⟨fun a b => lexLe_antisymm a b⟩

/-- sort_keys: the dict's keys in Python sorted order. -/
def sortKeysPy (ks : List PyStr) : List PyStr := List.insertionSort keyLe ks

/-- Decimal digits of a natural number (fuel-based so the kernel can reduce
it; fuel ≥ the number itself always suffices). -/
def natDigits : Nat → Nat → PyStr
  | 0, _ => []
  | fuel + 1, n =>
    if n < 10 then [Char.ofNat (48 + n)]
    else natDigits fuel (n / 10) ++ [Char.ofNat (48 + n % 10)]

/-- Decimal representation of an integer, as json.dumps renders int values. -/
def intRepr (n : Int) : PyStr :=
  if n < 0 then '-' :: natDigits (n.natAbs + 1) n.natAbs
  else natDigits (n.natAbs + 1) n.natAbs

/-- JSON string escaping (the fragment relevant here: backslash and quote). -/
def escapeJson : PyStr → PyStr
  | [] => []
  | c :: rest =>
    if c = '"' || c = '\\' then '\\' :: c :: escapeJson rest
    else c :: escapeJson rest

/-- JSON rendering of one label value, as json.dumps renders it: strings are
quoted and escaped, True/False become true/false, ints print in decimal. -/
def jsonOfVal : LabelValue → PyStr
  | .vStr s => '"' :: escapeJson s ++ ['"']
  | .vBool true => "true".toList
  | .vBool false => "false".toList
  | .vInt n => intRepr n

/-- json.dumps(d, sort_keys=True): a JSON object whose keys appear in sorted
order, each rendered with its value.  (A Python dict has unique keys, so
rendering each sorted key with its looked-up value is exactly the dump of
the sorted item list.) -/
def dumps (m : Attributes) : PyStr :=
  '\x7b' ::
    (List.intercalate (", ".toList)
      ((sortKeysPy (dictKeys m)).map
        (fun k => '"' :: escapeJson k ++ ['"'] ++ ": ".toList ++
          jsonOfVal ((dictGet? m k).getD (.vStr [])))))
    ++ ['\x7d']

/-- The canonical string Resource.__hash__ feeds to Python's string hash.
Python guarantees equal hashes for equal such strings (hash is a pure
function of the string); distinct strings carry no such guarantee, so this
canonical string is the faithful observable of __hash__. -/
def Resource.hashJson (self : Resource) : PyStr := dumps self._attributes

/- ----------------------------------------------------------------- -/
/- Dict lemmas                                                       -/
/- ----------------------------------------------------------------- -/

theorem dictContains_eq_isSome (m : Attributes) (k : PyStr) :
    dictContains m k = (dictGet? m k).isSome := by
  induction m with
  | nil => rfl
  | cons p rest ih =>
    by_cases h : p.1 = k
    · simp [dictContains, dictGet?, List.find?, h]
    · simp only [dictContains, dictGet?, List.any_cons, List.find?] at *
      simp [h, ih]

theorem find?_map_replace (m : Attributes) (k : PyStr) (v : LabelValue) :
    (m.map (fun p => if p.1 = k then (k, v) else p)).find? (fun p => p.1 = k)
      = (m.find? (fun p => p.1 = k)).map (fun _ => (k, v)) := by
  induction m with
  | nil => rfl
  | cons p rest ih =>
    by_cases h : p.1 = k
    · simp [List.find?, h]
    · simp [List.find?, h, ih]

theorem dictGet?_set_self (m : Attributes) (k : PyStr) (v : LabelValue) :
    dictGet? (dictSet m k v) k = some v := by
  unfold dictSet
  by_cases h : dictContains m k = true
  · rw [if_pos h]
    unfold dictGet?
    rw [find?_map_replace]
    rw [dictContains_eq_isSome] at h
    unfold dictGet? at h
    cases hf : m.find? (fun p => p.1 = k) with
    | none => rw [hf] at h; simp at h
    | some p => simp
  · rw [if_neg h]
    rw [dictContains_eq_isSome] at h
    unfold dictGet? at *
    rw [List.find?_append]
    cases hf : m.find? (fun p => p.1 = k) with
    | none => simp [List.find?]
    | some p => rw [hf] at h; simp at h

theorem find?_map_replace_ne (m : Attributes) (k k' : PyStr) (v : LabelValue)
    (h : k' ≠ k) :
    (m.map (fun p => if p.1 = k then (k, v) else p)).find? (fun p => p.1 = k')
      = m.find? (fun p => p.1 = k') := by
  induction m with
  | nil => rfl
  | cons p rest ih =>
    rw [List.map_cons]
    by_cases hp : p.1 = k
    · have hk : decide ((k : PyStr) = k') = false := decide_eq_false (fun hh => h hh.symm)
      have hp' : decide (p.1 = k') = false := by
        rw [hp]; exact hk
      rw [List.find?]
      rw [if_pos hp]
      simp only [hk]
      rw [List.find?, hp']
      exact ih
    · rw [List.find?, if_neg hp, List.find?]
      by_cases hp' : p.1 = k'
      · simp [hp']
      · rw [decide_eq_false hp']
        exact ih

theorem dictGet?_set_ne (m : Attributes) (k k' : PyStr) (v : LabelValue)
    (h : k' ≠ k) : dictGet? (dictSet m k v) k' = dictGet? m k' := by
  unfold dictSet
  by_cases hc : dictContains m k = true
  · rw [if_pos hc]
    unfold dictGet?
    rw [find?_map_replace_ne m k k' v h]
  · rw [if_neg hc]
    unfold dictGet?
    rw [List.find?_append]
    have hd : decide ((k : PyStr) = k') = false := decide_eq_false (fun hh => h hh.symm)
    have : List.find? (fun p => p.1 = k') [(k, v)] = none := by
      rw [List.find?]
      simp only [hd]
      rfl
    rw [this]
    cases m.find? (fun p => p.1 = k') <;> simp

theorem dictGet?_mem {m : Attributes} {k : PyStr} {v : LabelValue}
    (h : dictGet? m k = some v) : (k, v) ∈ m := by
  unfold dictGet? at h
  cases hf : m.find? (fun p => p.1 = k) with
  | none => rw [hf] at h; simp at h
  | some p =>
    rw [hf] at h
    simp at h
    have hp := List.find?_some hf
    simp at hp
    have hm := List.mem_of_find?_eq_some hf
    have : p = (k, v) := by
      cases p with
      | mk a b => simp at hp h; rw [hp, h]
    rw [← this]; exact hm

theorem dictGet?_of_mem_nodup {m : Attributes} {k : PyStr} {v : LabelValue}
    (hn : nodupKeys m) (hmem : (k, v) ∈ m) : dictGet? m k = some v := by
  induction m with
  | nil => simp at hmem
  | cons p rest ih =>
    have hn' : p.1 ∉ dictKeys rest ∧ nodupKeys rest := by
      unfold nodupKeys dictKeys at hn ⊢
      simp only [List.map_cons, List.nodup_cons] at hn
      exact hn
    rcases List.mem_cons.mp hmem with heq | htail
    · rw [← heq]
      simp [dictGet?, List.find?]
    · by_cases hp : p.1 = k
      · exfalso
        apply hn'.1
        rw [hp]
        unfold dictKeys
        exact List.mem_map.mpr ⟨(k, v), htail, rfl⟩
      · simp only [dictGet?, List.find?, decide_eq_true_eq]
        rw [decide_eq_false hp]
        exact ih hn'.2 htail

theorem dictGet?_eq_none_iff (m : Attributes) (k : PyStr) :
    dictGet? m k = none ↔ ∀ p ∈ m, p.1 ≠ k := by
  unfold dictGet?
  constructor
  · intro h p hp hk
    cases hf : m.find? (fun p => p.1 = k) with
    | none =>
      have := List.find?_eq_none.mp hf p hp
      simp [hk] at this
    | some q => rw [hf] at h; simp at h
  · intro h
    cases hf : m.find? (fun p => p.1 = k) with
    | none => rfl
    | some q =>
      have hq := List.find?_some hf
      have hm := List.mem_of_find?_eq_some hf
      simp at hq
      exact absurd hq (h q hm)

theorem mem_dictSet {m : Attributes} {k : PyStr} {v : LabelValue} {p : PyStr × LabelValue}
    (h : p ∈ dictSet m k v) : p ∈ m ∨ p = (k, v) := by
  unfold dictSet at h
  by_cases hc : dictContains m k = true
  · rw [if_pos hc] at h
    rcases List.mem_map.mp h with ⟨q, hq, hfq⟩
    by_cases hqk : q.1 = k
    · right; rw [← hfq]; simp [hqk]
    · left; rw [← hfq]; simp [hqk]; exact hq
  · rw [if_neg hc] at h
    rcases List.mem_append.mp h with hm | hs
    · left; exact hm
    · right; simpa using hs

theorem nodupKeys_dictSet {m : Attributes} (k : PyStr) (v : LabelValue)
    (hn : nodupKeys m) : nodupKeys (dictSet m k v) := by
  unfold dictSet
  by_cases hc : dictContains m k = true
  · rw [if_pos hc]
    have hkeys : dictKeys (m.map (fun p => if p.1 = k then (k, v) else p)) = dictKeys m := by
      unfold dictKeys
      rw [List.map_map]
      apply List.map_congr_left
      intro p _
      by_cases hp : p.1 = k
      · simp [hp]
      · simp [hp]
    unfold nodupKeys
    rw [hkeys]
    exact hn
  · rw [if_neg hc]
    unfold nodupKeys dictKeys
    rw [List.map_append]
    simp only [List.map_cons, List.map_nil]
    apply List.Nodup.append hn (List.nodup_singleton k)
    intro a ha hb
    simp at hb
    rw [dictContains_eq_isSome] at hc
    have hnone : dictGet? m k = none := by
      cases hg : dictGet? m k with
      | none => rfl
      | some w => rw [hg] at hc; simp at hc
    rcases List.mem_map.mp ha with ⟨q, hq, hfq⟩
    have := (dictGet?_eq_none_iff m k).mp hnone q hq
    rw [hfq] at this
    exact this hb

/- ----------------------------------------------------------------- -/
/- Merge lemmas                                                      -/
/- ----------------------------------------------------------------- -/

theorem dictGet?_mergeStep_ne (acc : Attributes) (p : PyStr × LabelValue)
    (k : PyStr) (h : p.1 ≠ k) : dictGet? (mergeStep acc p) k = dictGet? acc k := by
  unfold mergeStep
  have hne : k ≠ p.1 := fun hh => h hh.symm
  cases dictGet? acc p.1 with
  | none => exact dictGet?_set_ne acc p.1 k p.2 hne
  | some w =>
    by_cases hw : pyEqVal w (.vStr []) = true
    · simp only [hw, if_true]
      exact dictGet?_set_ne acc p.1 k p.2 hne
    · simp only [hw]
      rfl

theorem isSome_mergeStep (acc : Attributes) (p : PyStr × LabelValue) (k : PyStr) :
    (dictGet? (mergeStep acc p) k).isSome
      = ((dictGet? acc k).isSome || decide (p.1 = k)) := by
  by_cases hp : p.1 = k
  · subst hp
    unfold mergeStep
    cases hg : dictGet? acc p.1 with
    | none => simp [dictGet?_set_self]
    | some w =>
      by_cases hw : pyEqVal w (.vStr []) = true
      · simp [hw, dictGet?_set_self]
      · simp [hw, hg]
  · rw [dictGet?_mergeStep_ne acc p k hp]
    simp [hp]

theorem isSome_mergeFold (B : Attributes) : ∀ (acc : Attributes) (k : PyStr),
    (dictGet? (B.foldl mergeStep acc) k).isSome
      = ((dictGet? acc k).isSome || B.any (fun p => p.1 = k)) := by
  induction B with
  | nil => intro acc k; simp
  | cons p rest ih =>
    intro acc k
    rw [List.foldl_cons, ih (mergeStep acc p) k, isSome_mergeStep]
    simp [Bool.or_assoc]

theorem mergeFold_keeps (B : Attributes) : ∀ (acc : Attributes) (k : PyStr)
    (v : LabelValue), dictGet? acc k = some v → pyEqVal v (.vStr []) = false →
    dictGet? (B.foldl mergeStep acc) k = some v := by
  induction B with
  | nil => intro acc k v h _; exact h
  | cons p rest ih =>
    intro acc k v h hv
    rw [List.foldl_cons]
    by_cases hp : p.1 = k
    · have hstep : mergeStep acc p = acc := by
        unfold mergeStep
        rw [hp, h]
        show (if pyEqVal v (LabelValue.vStr []) = true then dictSet acc k p.2 else acc) = acc
        rw [hv]
        simp
      rw [hstep]
      exact ih acc k v h hv
    · apply ih
      · rw [dictGet?_mergeStep_ne acc p k hp]; exact h
      · exact hv

theorem mergeFold_frame (B : Attributes) : ∀ (acc : Attributes) (k : PyStr),
    (∀ p ∈ B, p.1 ≠ k) →
    dictGet? (B.foldl mergeStep acc) k = dictGet? acc k := by
  induction B with
  | nil => intro acc k _; rfl
  | cons p rest ih =>
    intro acc k h
    rw [List.foldl_cons]
    rw [ih (mergeStep acc p) k (fun q hq => h q (List.mem_cons_of_mem p hq))]
    exact dictGet?_mergeStep_ne acc p k (h p (List.mem_cons_self p rest))

theorem nodupKeys_cons {p : PyStr × LabelValue} {rest : Attributes}
    (hn : nodupKeys (p :: rest)) :
    (∀ q ∈ rest, q.1 ≠ p.1) ∧ nodupKeys rest := by
  unfold nodupKeys dictKeys at hn
  rw [List.map_cons, List.nodup_cons] at hn
  constructor
  · intro q hq hcontra
    exact hn.1 (hcontra ▸ List.mem_map.mpr ⟨q, hq, rfl⟩)
  · exact hn.2

theorem mergeFold_absent (B : Attributes) : ∀ (acc : Attributes) (k : PyStr)
    (v : LabelValue), nodupKeys B → dictGet? acc k = none →
    dictGet? B k = some v →
    dictGet? (B.foldl mergeStep acc) k = some v := by
  induction B with
  | nil => intro acc k v _ _ hB; simp [dictGet?] at hB
  | cons p rest ih =>
    intro acc k v hn hacc hB
    have hsplit := nodupKeys_cons hn
    rw [List.foldl_cons]
    by_cases hp : p.1 = k
    · have hv : v = p.2 := by
        unfold dictGet? at hB
        rw [List.find?] at hB
        rw [decide_eq_true hp] at hB
        simp at hB
        exact hB.symm
      have hstep : dictGet? (mergeStep acc p) k = some p.2 := by
        unfold mergeStep
        rw [hp, hacc]
        exact dictGet?_set_self acc k p.2
      rw [mergeFold_frame rest (mergeStep acc p) k
        (fun q hq => hp ▸ hsplit.1 q hq), hstep, hv]
    · apply ih (mergeStep acc p) k v hsplit.2
      · rw [dictGet?_mergeStep_ne acc p k hp]; exact hacc
      · unfold dictGet? at hB ⊢
        rw [List.find?, decide_eq_false hp] at hB
        exact hB

theorem mergeFold_override (B : Attributes) : ∀ (acc : Attributes) (k : PyStr)
    (v : LabelValue), nodupKeys B → dictGet? acc k = some (.vStr []) →
    dictGet? B k = some v →
    dictGet? (B.foldl mergeStep acc) k = some v := by
  induction B with
  | nil => intro acc k v _ _ hB; simp [dictGet?] at hB
  | cons p rest ih =>
    intro acc k v hn hacc hB
    have hsplit := nodupKeys_cons hn
    rw [List.foldl_cons]
    by_cases hp : p.1 = k
    · have hv : v = p.2 := by
        unfold dictGet? at hB
        rw [List.find?, decide_eq_true hp] at hB
        simp at hB
        exact hB.symm
      have hstep : dictGet? (mergeStep acc p) k = some p.2 := by
        unfold mergeStep
        rw [hp, hacc]
        show dictGet? (if pyEqVal (LabelValue.vStr []) (LabelValue.vStr []) = true
          then dictSet acc k p.2 else acc) k = some p.2
        rw [if_pos (by decide)]
        exact dictGet?_set_self acc k p.2
      rw [mergeFold_frame rest (mergeStep acc p) k
        (fun q hq => hp ▸ hsplit.1 q hq), hstep, hv]
    · apply ih (mergeStep acc p) k v hsplit.2
      · rw [dictGet?_mergeStep_ne acc p k hp]; exact hacc
      · unfold dictGet? at hB ⊢
        rw [List.find?, decide_eq_false hp] at hB
        exact hB

theorem mergeFold_fresh (B : Attributes) : ∀ (acc : Attributes),
    nodupKeys B → (∀ p ∈ B, dictGet? acc p.1 = none) →
    B.foldl mergeStep acc = acc ++ B := by
  induction B with
  | nil => intro acc _ _; simp
  | cons p rest ih =>
    intro acc hn hfresh
    have hsplit := nodupKeys_cons hn
    rw [List.foldl_cons]
    have hstep : mergeStep acc p = acc ++ [p] := by
      unfold mergeStep
      rw [hfresh p (List.mem_cons_self p rest)]
      unfold dictSet
      have hc : dictContains acc p.1 = false := by
        rw [dictContains_eq_isSome, hfresh p (List.mem_cons_self p rest)]
        rfl
      rw [hc]
      simp
    rw [hstep]
    rw [ih (acc ++ [p]) hsplit.2]
    · simp
    · intro q hq
      rw [dictGet?_eq_none_iff]
      intro r hr
      rcases List.mem_append.mp hr with hra | hrp
      · exact (dictGet?_eq_none_iff acc q.1).mp
          (hfresh q (List.mem_cons_of_mem p hq)) r hra
      · have : r = p := by simpa using hrp
        rw [this]
        exact fun hh => hsplit.1 q hq hh.symm

/- ----------------------------------------------------------------- -/
/- Aggregation lemmas                                                -/
/- ----------------------------------------------------------------- -/

theorem aggregateDetectors_ok (ds : List ResourceDetector) : ∀ (final : Resource),
    (∀ d ∈ ds, (d.detect).isOk = true) →
    aggregateDetectors ds final = .ok (ds.foldl
      (fun f d => f.merge (d.detect.toOption.getD _EMPTY_RESOURCE)) final) := by
  induction ds with
  | nil => intro final _; rfl
  | cons d rest ih =>
    intro final hok
    have hd := hok d (List.mem_cons_self d rest)
    cases hdet : d.detect with
    | error e => rw [hdet] at hd; simp [Except.isOk, Except.toBool] at hd
    | ok r =>
      rw [List.foldl_cons]
      simp only [aggregateDetectors, hdet, Except.toOption, Option.getD]
      exact ih (final.merge r) (fun q hq => hok q (List.mem_cons_of_mem d hq))

theorem aggregateDetectors_error (pre : List ResourceDetector) :
    ∀ (final : Resource) (d : ResourceDetector) (post : List ResourceDetector)
    (e : PyError), d.raise_on_error = true → d.detect = .error e →
    (∀ d' ∈ pre, d'.raise_on_error = true → (d'.detect).isOk = true) →
    aggregateDetectors (pre ++ d :: post) final = .error e := by
  induction pre with
  | nil =>
    intro final d post e hdr hde _
    rw [List.nil_append]
    simp only [aggregateDetectors, hde, hdr]
    simp
  | cons p rest ih =>
    intro final d post e hdr hde hpre
    rw [List.cons_append]
    cases hp : p.detect with
    | ok r =>
      simp only [aggregateDetectors, hp]
      exact ih (final.merge r) d post e hdr hde
        (fun q hq => hpre q (List.mem_cons_of_mem p hq))
    | error ex =>
      have hpr : p.raise_on_error = false := by
        by_cases hb : p.raise_on_error = true
        · have := hpre p (List.mem_cons_self p rest) hb
          rw [hp] at this
          simp [Except.isOk, Except.toBool] at this
        · simp at hb; exact hb
      simp only [aggregateDetectors, hp, hpr]
      simp only [Bool.false_eq_true, if_false]
      exact ih (final.merge _EMPTY_RESOURCE) d post e hdr hde
        (fun q hq => hpre q (List.mem_cons_of_mem p hq))

theorem aggregateDetectors_contained (pre : List ResourceDetector) :
    ∀ (final : Resource) (post : List ResourceDetector) (e : PyError),
    aggregateDetectors (pre ++ ⟨false, .error e⟩ :: post) final
      = aggregateDetectors (pre ++ ⟨false, .ok _EMPTY_RESOURCE⟩ :: post) final := by
  induction pre with
  | nil => intro final post e; rfl
  | cons p rest ih =>
    intro final post e
    rw [List.cons_append, List.cons_append]
    cases hp : p.detect with
    | ok r =>
      simp only [aggregateDetectors, hp]
      exact ih (final.merge r) post e
    | error ex =>
      cases hpr : p.raise_on_error with
      | true => simp only [aggregateDetectors, hp, hpr]; simp
      | false =>
        simp only [aggregateDetectors, hp, hpr]
        simp only [Bool.false_eq_true, if_false]
        exact ih (final.merge _EMPTY_RESOURCE) post e

/- ----------------------------------------------------------------- -/
/- Environment parsing lemmas                                        -/
/- ----------------------------------------------------------------- -/

theorem parseEnvItem_ok (acc : Attributes) (item kr vr : PyStr)
    (h : splitOnChar '=' item = [kr, vr]) :
    parseEnvItem acc item = .ok (dictSet acc (pyStrip kr) (.vStr (pyStrip vr))) := by
  unfold parseEnvItem
  rw [h]

theorem parseEnvItem_error (acc : Attributes) (item : PyStr)
    (h : (splitOnChar '=' item).length ≠ 2) :
    parseEnvItem acc item = .error .valueError := by
  unfold parseEnvItem
  cases hs : splitOnChar '=' item with
  | nil => rfl
  | cons a t =>
    cases t with
    | nil => rfl
    | cons b t2 =>
      cases t2 with
      | nil => exfalso; apply h; rw [hs]; rfl
      | cons c t3 => rfl

theorem length_two_shape {l : List PyStr} (h : l.length = 2) :
    ∃ a b, l = [a, b] := by
  cases l with
  | nil => simp at h
  | cons a t =>
    cases t with
    | nil => simp at h
    | cons b t2 =>
      cases t2 with
      | nil => exact ⟨a, b, rfl⟩
      | cons c t3 => simp at h

theorem envResourceMap_fold_ok (items : List PyStr) : ∀ acc : Attributes,
    (∀ item ∈ items, (splitOnChar '=' item).length = 2) →
    ∃ m, items.foldlM parseEnvItem acc = .ok m := by
  induction items with
  | nil => intro acc _; exact ⟨acc, rfl⟩
  | cons it rest ih =>
    intro acc hall
    obtain ⟨a, b, hs⟩ := length_two_shape (hall it (List.mem_cons_self it rest))
    obtain ⟨m, hm⟩ := ih (dictSet acc (pyStrip a) (.vStr (pyStrip b)))
      (fun q hq => hall q (List.mem_cons_of_mem it hq))
    refine ⟨m, ?_⟩
    rw [List.foldlM_cons, parseEnvItem_ok acc it a b hs]
    simpa [Bind.bind, Except.bind] using hm

theorem envResourceMap_fold_error (items : List PyStr) : ∀ (acc : Attributes)
    (item : PyStr), item ∈ items → (splitOnChar '=' item).length ≠ 2 →
    items.foldlM parseEnvItem acc = .error .valueError := by
  induction items with
  | nil => intro acc item hmem; exact absurd hmem (List.not_mem_nil item)
  | cons it rest ih =>
    intro acc item hmem hbad
    rw [List.foldlM_cons]
    rcases List.mem_cons.mp hmem with heq | htail
    · rw [← heq, parseEnvItem_error acc item hbad]
      simp [Bind.bind, Except.bind]
    · by_cases hgood : (splitOnChar '=' it).length = 2
      · obtain ⟨a, b, hs⟩ := length_two_shape hgood
        rw [parseEnvItem_ok acc it a b hs]
        simpa [Bind.bind, Except.bind] using
          ih (dictSet acc (pyStrip a) (.vStr (pyStrip b))) item htail hbad
      · rw [parseEnvItem_error acc it hgood]
        simp [Bind.bind, Except.bind]

theorem envResourceMap_fold_sound (items : List PyStr) : ∀ (acc m : Attributes),
    items.foldlM parseEnvItem acc = .ok m → ∀ k v, (k, v) ∈ m →
    ((k, v) ∈ acc ∨ ∃ item ∈ items, ∃ kr vr, splitOnChar '=' item = [kr, vr] ∧
      k = pyStrip kr ∧ v = .vStr (pyStrip vr)) := by
  induction items with
  | nil =>
    intro acc m hok k v hmem
    left
    have : acc = m := by
      simp only [List.foldlM, pure, Except.pure] at hok
      exact Except.ok.inj hok
    rw [this]
    exact hmem
  | cons it rest ih =>
    intro acc m hok k v hmem
    rw [List.foldlM_cons] at hok
    cases hp : parseEnvItem acc it with
    | error e =>
      rw [hp] at hok
      simp [Bind.bind, Except.bind] at hok
    | ok acc2 =>
      rw [hp] at hok
      simp only [Bind.bind, Except.bind] at hok
      rcases ih acc2 m hok k v hmem with hin | ⟨q, hq, kr, vr, hsq, hk, hv⟩
      · unfold parseEnvItem at hp
        cases hs : splitOnChar '=' it with
        | nil => rw [hs] at hp; simp at hp
        | cons a t =>
          cases t with
          | nil => rw [hs] at hp; simp at hp
          | cons b t2 =>
            cases t2 with
            | nil =>
              rw [hs] at hp
              simp at hp
              rw [← hp] at hin
              rcases mem_dictSet hin with hacc | hpair
              · left; exact hacc
              · right
                refine ⟨it, List.mem_cons_self it rest, a, b, hs, ?_, ?_⟩
                · exact congrArg Prod.fst hpair
                · exact congrArg Prod.snd hpair
            | cons c t3 => rw [hs] at hp; simp at hp
      · right
        exact ⟨q, List.mem_cons_of_mem it hq, kr, vr, hsq, hk, hv⟩

theorem splitOnChar_no_sep (sep : Char) (s : PyStr) (h : ∀ c ∈ s, c ≠ sep) :
    splitOnChar sep s = [s] := by
  induction s with
  | nil => rfl
  | cons c rest ih =>
    unfold splitOnChar
    rw [ih (fun q hq => h q (List.mem_cons_of_mem c hq))]
    show (if c = sep then [[], rest] else [c :: rest]) = [c :: rest]
    rw [if_neg (h c (List.mem_cons_self c rest))]

/- ----------------------------------------------------------------- -/
/- Claim theorems                                                    -/
/- ----------------------------------------------------------------- -/

theorem any_key_eq_isSome (m : Attributes) (k : PyStr) :
    (m.any (fun p => p.1 = k)) = (dictGet? m k).isSome :=
  dictContains_eq_isSome m k

/-- C1: for all Resources A and B, A.merge(B) has the union of the key sets,
keeps A's value for a key of A unless that value is the empty string, and
takes B's value when A's value is the empty string or the key is only in B. -/
theorem Resource.merge_spec (A B : Resource) (k : PyStr)
    (hn : nodupKeys B.attributes) :
    ((dictGet? (A.merge B).attributes k).isSome
        = ((dictGet? A.attributes k).isSome || (dictGet? B.attributes k).isSome)) ∧
    (∀ v, dictGet? A.attributes k = some v → pyEqVal v (.vStr []) = false →
      dictGet? (A.merge B).attributes k = some v) ∧
    (∀ w, dictGet? A.attributes k = some (.vStr []) →
      dictGet? B.attributes k = some w →
      dictGet? (A.merge B).attributes k = some w) ∧
    (∀ w, dictGet? A.attributes k = none → dictGet? B.attributes k = some w →
      dictGet? (A.merge B).attributes k = some w) := by
  refine ⟨?_, ?_, ?_, ?_⟩
  · show (dictGet? (mergeAttrs A._attributes B._attributes) k).isSome = _
    unfold mergeAttrs
    rw [isSome_mergeFold, any_key_eq_isSome]
    rfl
  · intro v hv hne
    exact mergeFold_keeps B._attributes A._attributes k v hv hne
  · intro w hA hB
    exact mergeFold_override B._attributes A._attributes k w hn hA hB
  · intro w hA hB
    exact mergeFold_absent B._attributes A._attributes k w hn hA hB

/-- Witness for C1: the empty-string override at concrete resources. -/
theorem Resource.merge_spec_witness :
    nodupKeys (Resource.mk [("a".toList, .vStr "2".toList),
      ("e".toList, .vStr "E".toList), ("b".toList, .vInt 3)]).attributes ∧
    dictGet? ((Resource.mk [("a".toList, .vStr "1".toList), ("e".toList, .vStr [])]).merge
      (Resource.mk [("a".toList, .vStr "2".toList), ("e".toList, .vStr "E".toList),
        ("b".toList, .vInt 3)])).attributes "e".toList = some (.vStr "E".toList) :=
  ⟨by decide, (Resource.merge_spec _ _ _ (by decide)).2.2.1 _ (by decide) (by decide)⟩

/-- C10: the empty resource returned by create_empty is a two-sided identity
for merge (which is what makes a contained detector failure, replaced by the
empty resource, leave the running aggregation value unchanged). -/
theorem merge_empty_identity (A : Resource) (hn : nodupKeys A.attributes) :
    A.merge Resource.create_empty = A ∧ Resource.create_empty.merge A = A ∧
    A.merge _EMPTY_RESOURCE = A ∧ _EMPTY_RESOURCE.merge A = A := by
  have hright : A.merge _EMPTY_RESOURCE = A := by
    cases A with
    | mk l => rfl
  have hleft : _EMPTY_RESOURCE.merge A = A := by
    cases A with
    | mk l =>
      show Resource.mk (mergeAttrs [] l) = Resource.mk l
      unfold mergeAttrs
      rw [mergeFold_fresh l [] hn (fun p _ => rfl)]
      rw [List.nil_append]
  exact ⟨hright, hleft, hright, hleft⟩

/-- Witness for C10 at a concrete resource. -/
theorem merge_empty_identity_witness :
    (Resource.mk [("a".toList, .vInt 2)]).merge Resource.create_empty
        = Resource.mk [("a".toList, .vInt 2)] ∧
    Resource.create_empty.merge (Resource.mk [("a".toList, .vInt 2)])
        = Resource.mk [("a".toList, .vInt 2)] :=
  ⟨(merge_empty_identity _ (by decide)).1, (merge_empty_identity _ (by decide)).2.1⟩

/-- C3: Resource.create returns the process-wide default resource itself on an
empty collection (no merge), and otherwise _DEFAULT_RESOURCE.merge(Resource(attributes)),
so for overlapping keys the default SDK value is kept unless it is the empty
string, in which case the caller's value wins. -/
theorem Resource.create_spec (sdkVersion : PyStr) (attrs : Attributes) :
    Resource.create sdkVersion [] = _DEFAULT_RESOURCE sdkVersion ∧
    (attrs ≠ [] → Resource.create sdkVersion attrs
        = (_DEFAULT_RESOURCE sdkVersion).merge ⟨attrs⟩) ∧
    (∀ k v, attrs ≠ [] →
      dictGet? (_DEFAULT_RESOURCE sdkVersion).attributes k = some v →
      pyEqVal v (.vStr []) = false →
      dictGet? (Resource.create sdkVersion attrs).attributes k = some v) ∧
    (∀ k w, attrs ≠ [] → nodupKeys attrs →
      dictGet? (_DEFAULT_RESOURCE sdkVersion).attributes k = some (.vStr []) →
      dictGet? attrs k = some w →
      dictGet? (Resource.create sdkVersion attrs).attributes k = some w) := by
  have hne : ∀ (h : attrs ≠ []), attrs.isEmpty = false := by
    intro h
    cases attrs with
    | nil => exact absurd rfl h
    | cons p rest => rfl
  refine ⟨rfl, ?_, ?_, ?_⟩
  · intro h
    unfold Resource.create
    rw [hne h]
    simp
  · intro k v h hv hnev
    unfold Resource.create
    rw [hne h]
    simp only [Bool.false_eq_true, if_false]
    exact mergeFold_keeps attrs _ k v hv hnev
  · intro k w h hnd hv hw
    unfold Resource.create
    rw [hne h]
    simp only [Bool.false_eq_true, if_false]
    exact mergeFold_override attrs _ k w hnd hv hw

/-- Witness for C3: empty and non-empty creation at concrete inputs. -/
theorem Resource.create_spec_witness :
    Resource.create "1.0".toList [] = _DEFAULT_RESOURCE "1.0".toList ∧
    Resource.create "1.0".toList [("svc".toList, .vStr "x".toList)]
      = (_DEFAULT_RESOURCE "1.0".toList).merge ⟨[("svc".toList, .vStr "x".toList)]⟩ :=
  ⟨(Resource.create_spec "1.0".toList [("svc".toList, .vStr "x".toList)]).1,
   (Resource.create_spec "1.0".toList [("svc".toList, .vStr "x".toList)]).2.1 (by decide)⟩

/-- C2: with deterministic detector outcomes and no raised errors, aggregation
is the sequential left fold of merge over the effective detector list
(environment detector first, then the caller's detectors in caller order),
seeded with the initial resource when supplied and the empty resource
otherwise (completion order of the underlying futures never enters: the
source awaits them in submission order).  With no detectors and no initial
resource the result is exactly the empty resource merged with the
environment detector's result — Resource.create and the default SDK
attributes are never involved. -/
theorem get_aggregated_resources_fold (env : Option PyStr)
    (detectors : List ResourceDetector) (initial : Option Resource)
    (henv : (OTELResourceDetector.detect env).isOk = true)
    (hok : ∀ d ∈ detectors, (d.detect).isOk = true) :
    (get_aggregated_resources env detectors initial
      = .ok ((ResourceDetector.mk false (OTELResourceDetector.detect env) :: detectors).foldl
          (fun f d => f.merge (d.detect.toOption.getD _EMPTY_RESOURCE))
          (initial.getD _EMPTY_RESOURCE))) ∧
    (∀ r, OTELResourceDetector.detect env = .ok r →
      get_aggregated_resources env [] none = .ok (_EMPTY_RESOURCE.merge r)) := by
  constructor
  · unfold get_aggregated_resources
    apply aggregateDetectors_ok
    intro d hd
    rcases List.mem_cons.mp hd with heq | htail
    · rw [heq]; exact henv
    · exact hok d htail
  · intro r hr
    unfold get_aggregated_resources
    simp only [aggregateDetectors, hr]
    rfl

/-- Witness for C2 at a concrete environment and detector list. -/
theorem get_aggregated_resources_fold_witness :
    get_aggregated_resources (some "a=1".toList)
      [ResourceDetector.mk false (.ok (Resource.mk [("b".toList, .vInt 2)]))] none
      = .ok ((ResourceDetector.mk false (OTELResourceDetector.detect (some "a=1".toList))
          :: [ResourceDetector.mk false (.ok (Resource.mk [("b".toList, .vInt 2)]))]).foldl
          (fun f d => f.merge (d.detect.toOption.getD _EMPTY_RESOURCE))
          ((none : Option Resource).getD _EMPTY_RESOURCE)) :=
  (get_aggregated_resources_fold (some "a=1".toList)
    [ResourceDetector.mk false (.ok (Resource.mk [("b".toList, .vInt 2)]))] none
    (by decide) (by decide)).1

/-- C6: if a detector with raise_on_error=True raises (or its future times
out, which surfaces as the same kind of raised error), aggregation raises
that same error to the caller: the overall outcome is that error, so no
(partially merged) Resource is observable. -/
theorem get_aggregated_resources_raises (env : Option PyStr)
    (pre post : List ResourceDetector) (d : ResourceDetector) (e : PyError)
    (initial : Option Resource)
    (hd : d.raise_on_error = true) (hde : d.detect = .error e)
    (hpre : ∀ d' ∈ pre, d'.raise_on_error = true → (d'.detect).isOk = true) :
    get_aggregated_resources env (pre ++ d :: post) initial = .error e := by
  unfold get_aggregated_resources
  rw [← List.cons_append]
  apply aggregateDetectors_error _ _ d post e hd hde
  intro d' hd' hraise
  rcases List.mem_cons.mp hd' with heq | htail
  · rw [heq] at hraise; simp at hraise
  · exact hpre d' htail hraise

/-- Witness for C6 at a concrete detector list. -/
theorem get_aggregated_resources_raises_witness :
    get_aggregated_resources none
      [ResourceDetector.mk false (.ok (Resource.mk [("a".toList, .vStr "1".toList)])),
       ResourceDetector.mk true (.error (.detectorError 7))] none
      = .error (.detectorError 7) :=
  get_aggregated_resources_raises none
    [ResourceDetector.mk false (.ok (Resource.mk [("a".toList, .vStr "1".toList)]))] []
    (ResourceDetector.mk true (.error (.detectorError 7))) (.detectorError 7) none
    rfl rfl (by decide)

/-- C7: a detector with raise_on_error=False that raises (or times out) does
not make aggregation raise: the aggregation result is identical to the run
where that detector returned the empty resource, and when the environment
detector and all other detectors succeed the aggregation returns a result. -/
theorem get_aggregated_resources_contained (env : Option PyStr)
    (pre post : List ResourceDetector) (e : PyError) (initial : Option Resource) :
    (get_aggregated_resources env (pre ++ ⟨false, .error e⟩ :: post) initial
      = get_aggregated_resources env (pre ++ ⟨false, .ok _EMPTY_RESOURCE⟩ :: post) initial) ∧
    ((OTELResourceDetector.detect env).isOk = true →
     (∀ d' ∈ pre ++ post, (d'.detect).isOk = true) →
     ∃ r, get_aggregated_resources env (pre ++ ⟨false, .error e⟩ :: post) initial = .ok r) := by
  have hsub : get_aggregated_resources env (pre ++ ⟨false, .error e⟩ :: post) initial
      = get_aggregated_resources env (pre ++ ⟨false, .ok _EMPTY_RESOURCE⟩ :: post) initial := by
    unfold get_aggregated_resources
    rw [← List.cons_append, ← List.cons_append]
    exact aggregateDetectors_contained _ _ post e
  refine ⟨hsub, ?_⟩
  intro henv hok
  rw [hsub]
  unfold get_aggregated_resources
  refine ⟨_, aggregateDetectors_ok _ _ ?_⟩
  intro d' hd'
  rcases List.mem_cons.mp hd' with heq | htail
  · rw [heq]; exact henv
  · rcases List.mem_append.mp htail with hp | hq
    · exact hok d' (List.mem_append.mpr (Or.inl hp))
    · rcases List.mem_cons.mp hq with heq2 | hpost
      · rw [heq2]; rfl
      · exact hok d' (List.mem_append.mpr (Or.inr hpost))

/-- Witness for C7 at a concrete detector list. -/
theorem get_aggregated_resources_contained_witness :
    (get_aggregated_resources none
      [ResourceDetector.mk false (.error (.detectorError 3)),
       ResourceDetector.mk false (.ok (Resource.mk [("b".toList, .vBool true)]))] none
      = get_aggregated_resources none
      [ResourceDetector.mk false (.ok _EMPTY_RESOURCE),
       ResourceDetector.mk false (.ok (Resource.mk [("b".toList, .vBool true)]))] none) ∧
    ∃ r, get_aggregated_resources none
      [ResourceDetector.mk false (.error (.detectorError 3)),
       ResourceDetector.mk false (.ok (Resource.mk [("b".toList, .vBool true)]))] none = .ok r :=
  ⟨(get_aggregated_resources_contained none []
      [ResourceDetector.mk false (.ok (Resource.mk [("b".toList, .vBool true)]))]
      (.detectorError 3) none).1,
   (get_aggregated_resources_contained none []
      [ResourceDetector.mk false (.ok (Resource.mk [("b".toList, .vBool true)]))]
      (.detectorError 3) none).2 (by decide) (by decide)⟩

/-- Counterexample to C4 as stated: the source does NOT split an entry on the
first '=' only — it splits on every '=' and unpacks into exactly two parts —
so the entry k=a=b raises ValueError instead of yielding key k with value
a=b. -/
theorem OTELResourceDetector.detect_counterexample :
    OTELResourceDetector.detect (some "k=a=b".toList) = .error .valueError ∧
    OTELResourceDetector.detect (some "k=a=b".toList)
      ≠ .ok (Resource.mk [("k".toList, .vStr "a=b".toList)]) := by
  exact ⟨by decide, by decide⟩

/-- C4 amended: detect splits the variable on commas and each entry on every
'=' and requires exactly two parts per entry (an entry with no '=' or with
more than one '=' raises ValueError); key and value are whitespace-stripped;
an unset or empty variable yields a resource with no attributes; every
attribute of a successful parse is the stripped key and stripped value of
some entry. -/
theorem OTELResourceDetector.detect_amended (s : PyStr) (hs : s ≠ []) :
    (OTELResourceDetector.detect none = .ok (Resource.mk [])) ∧
    (OTELResourceDetector.detect (some []) = .ok (Resource.mk [])) ∧
    ((∃ r, OTELResourceDetector.detect (some s) = .ok r) ↔
      ∀ item ∈ splitOnChar ',' s, (splitOnChar '=' item).length = 2) ∧
    (∀ r, OTELResourceDetector.detect (some s) = .ok r →
      ∀ k v, (k, v) ∈ r._attributes →
        ∃ item ∈ splitOnChar ',' s, ∃ kr vr, splitOnChar '=' item = [kr, vr] ∧
          k = pyStrip kr ∧ v = .vStr (pyStrip vr)) ∧
    (OTELResourceDetector.detect (some " k = v ,a=b".toList)
      = .ok (Resource.mk [("k".toList, .vStr "v".toList),
          ("a".toList, .vStr "b".toList)])) := by
  refine ⟨rfl, rfl, ?_, ?_, by decide⟩
  · constructor
    · rintro ⟨r, hr⟩ item hitem
      simp only [OTELResourceDetector.detect] at hr
      rw [if_neg hs] at hr
      by_contra hbad
      have herr := envResourceMap_fold_error (splitOnChar ',' s) [] item hitem hbad
      unfold envResourceMap at hr
      rw [herr] at hr
      simp [Except.map] at hr
    · intro hall
      obtain ⟨m, hm⟩ := envResourceMap_fold_ok (splitOnChar ',' s) [] hall
      refine ⟨Resource.mk m, ?_⟩
      simp only [OTELResourceDetector.detect]
      rw [if_neg hs]
      unfold envResourceMap
      rw [hm]
      rfl
  · intro r hr k v hmem
    simp only [OTELResourceDetector.detect] at hr
    rw [if_neg hs] at hr
    cases henv : envResourceMap (splitOnChar ',' s) with
    | error e => rw [henv] at hr; simp [Except.map] at hr
    | ok m =>
      rw [henv] at hr
      simp only [Except.map] at hr
      have hrm : r = Resource.mk m := (Except.ok.inj hr).symm
      unfold envResourceMap at henv
      have := envResourceMap_fold_sound (splitOnChar ',' s) [] m henv k v
        (by rw [hrm] at hmem; exact hmem)
      rcases this with hnil | hgood
      · exact absurd hnil (List.not_mem_nil (k, v))
      · exact hgood

/-- Witness for the amended C4: a variable whose entries all have exactly one
'=' parses successfully. -/
theorem OTELResourceDetector.detect_amended_witness :
    ∃ r, OTELResourceDetector.detect (some "a=1,b = 2".toList) = .ok r :=
  ((OTELResourceDetector.detect_amended "a=1,b = 2".toList (by decide)).2.2.1).mpr
    (by decide)

/-- C5: a non-empty OTEL_RESOURCE_ATTRIBUTES containing an entry with no '='
makes the whole detect call raise ValueError (fail-fast): no resource with
the remaining well-formed pairs is returned. -/
theorem OTELResourceDetector.detect_fail_fast (s item : PyStr) (hs : s ≠ [])
    (hmem : item ∈ splitOnChar ',' s) (hbad : ∀ c ∈ item, c ≠ '=') :
    OTELResourceDetector.detect (some s) = .error .valueError := by
  simp only [OTELResourceDetector.detect]
  rw [if_neg hs]
  have h1 : splitOnChar '=' item = [item] := splitOnChar_no_sep '=' item hbad
  have hlen : (splitOnChar '=' item).length ≠ 2 := by
    rw [h1]
    simp
  unfold envResourceMap
  rw [envResourceMap_fold_error (splitOnChar ',' s) [] item hmem hlen]
  rfl

/-- Witness for C5: one malformed entry aborts detection of a variable that
also contains a well-formed pair. -/
theorem OTELResourceDetector.detect_fail_fast_witness :
    OTELResourceDetector.detect (some "a=1,bad".toList) = .error .valueError :=
  OTELResourceDetector.detect_fail_fast "a=1,bad".toList "bad".toList
    (by decide) (by decide) (by decide)

/- ----------------------------------------------------------------- -/
/- Equality and hash lemmas                                          -/
/- ----------------------------------------------------------------- -/

/-- Python equality lifted to optional lookup results. -/
def optValEq : Option LabelValue → Option LabelValue → Bool
  | none, none => true
  | some v, some w => pyEqVal v w
  | _, _ => false

theorem pyEqVal_refl (v : LabelValue) : pyEqVal v v = true := by
  cases v <;> simp [pyEqVal]

theorem mem_dictKeys_iff (m : Attributes) (k : PyStr) :
    k ∈ dictKeys m ↔ (dictGet? m k).isSome = true := by
  rw [← dictContains_eq_isSome]
  unfold dictContains dictKeys
  rw [List.any_eq_true]
  constructor
  · intro hmem
    rcases List.mem_map.mp hmem with ⟨p, hp, hfst⟩
    exact ⟨p, hp, by simp [hfst]⟩
  · rintro ⟨p, hp, hk⟩
    simp at hk
    exact List.mem_map.mpr ⟨p, hp, hk⟩

theorem dictEqPy_iff (a b : Attributes) (hna : nodupKeys a) (hnb : nodupKeys b) :
    dictEqPy a b = true ↔
      ∀ k, optValEq (dictGet? a k) (dictGet? b k) = true := by
  unfold dictEqPy
  rw [Bool.and_eq_true, List.all_eq_true, List.all_eq_true]
  constructor
  · rintro ⟨hall1, hall2⟩ k
    cases hga : dictGet? a k with
    | some v =>
      have hmem := dictGet?_mem hga
      have h1 := hall1 (k, v) hmem
      cases hgb : dictGet? b k with
      | none => rw [hgb] at h1; simp at h1
      | some w =>
        rw [hgb] at h1
        exact h1
    | none =>
      cases hgb : dictGet? b k with
      | none => rfl
      | some w =>
        have hmem := dictGet?_mem hgb
        have h2 := hall2 (k, w) hmem
        rw [hga] at h2
        simp at h2
  · intro h
    constructor
    · intro p hp
      have hga := dictGet?_of_mem_nodup hna hp
      have hk := h p.1
      rw [hga] at hk
      cases hgb : dictGet? b p.1 with
      | none => rw [hgb] at hk; simp [optValEq] at hk
      | some w =>
        rw [hgb] at hk
        exact hk
    · intro p hp
      have hgb := dictGet?_of_mem_nodup hnb hp
      have hk := h p.1
      rw [hgb] at hk
      cases hga : dictGet? a p.1 with
      | none => rw [hga] at hk; simp [optValEq] at hk
      | some v => rfl

theorem nodupKeys_of_perm {a b : Attributes} (hna : nodupKeys a)
    (hp : a.Perm b) : nodupKeys b :=
  List.Nodup.perm hna (List.Perm.map Prod.fst hp)

theorem dictGet?_eq_of_perm {a b : Attributes} (hna : nodupKeys a)
    (hp : a.Perm b) (k : PyStr) : dictGet? a k = dictGet? b k := by
  have hnb := nodupKeys_of_perm hna hp
  cases hga : dictGet? a k with
  | some v =>
    have hmem := (hp.mem_iff).mp (dictGet?_mem hga)
    exact (dictGet?_of_mem_nodup hnb hmem).symm
  | none =>
    cases hgb : dictGet? b k with
    | none => rfl
    | some w =>
      have hmem := (hp.mem_iff).mpr (dictGet?_mem hgb)
      rw [dictGet?_of_mem_nodup hna hmem] at hga
      simp at hga

theorem sortKeysPy_eq_of_same_mem (ka kb : List PyStr) (hka : ka.Nodup)
    (hkb : kb.Nodup) (hmem : ∀ k, k ∈ ka ↔ k ∈ kb) :
    sortKeysPy ka = sortKeysPy kb := by
  have hperm : ka.Perm kb := by
    apply List.perm_of_nodup_nodup_toFinset_eq hka hkb
    ext x
    simp only [List.mem_toFinset]
    exact hmem x
  have h1 : (sortKeysPy ka).Perm (sortKeysPy kb) :=
    ((List.perm_insertionSort keyLe ka).trans hperm).trans
      (List.perm_insertionSort keyLe kb).symm
  exact List.eq_of_perm_of_sorted h1
    (List.sorted_insertionSort keyLe ka) (List.sorted_insertionSort keyLe kb)

theorem dumps_congr (a b : Attributes) (hna : nodupKeys a) (hnb : nodupKeys b)
    (h : ∀ k, dictGet? a k = dictGet? b k) : dumps a = dumps b := by
  unfold dumps
  have hkeys : sortKeysPy (dictKeys a) = sortKeysPy (dictKeys b) := by
    apply sortKeysPy_eq_of_same_mem _ _ hna hnb
    intro k
    rw [mem_dictKeys_iff, mem_dictKeys_iff, h k]
  rw [hkeys]
  have hmap : ∀ k ∈ sortKeysPy (dictKeys b),
      ('"' :: escapeJson k ++ ['"'] ++ ": ".toList ++
        jsonOfVal ((dictGet? a k).getD (.vStr [])))
      = ('"' :: escapeJson k ++ ['"'] ++ ": ".toList ++
        jsonOfVal ((dictGet? b k).getD (.vStr []))) := by
    intro k _
    rw [h k]
  rw [List.map_congr_left hmap]

/-- Counterexample to C9 as stated: Resource({"k": True}) and Resource({"k": 1})
are equal under the source's __eq__ (Python dict equality, where True == 1)
although their key/value pairs are not identical, and their canonical
sort_keys JSON serializations — the strings __hash__ hashes — differ, so
equal hash values are not guaranteed for these two equal Resources. -/
theorem Resource.eq_hash_counterexample :
    Resource.beq (Resource.mk [("k".toList, .vBool true)])
        (Resource.mk [("k".toList, .vInt 1)]) = true ∧
    Resource.mk [("k".toList, LabelValue.vBool true)]
      ≠ Resource.mk [("k".toList, LabelValue.vInt 1)] ∧
    Resource.hashJson (Resource.mk [("k".toList, .vBool true)])
      ≠ Resource.hashJson (Resource.mk [("k".toList, .vInt 1)]) :=
  ⟨by decide, by decide, by decide⟩

/-- C9 amended: two Resources are equal exactly when every key is mapped to
Python-equal values in both (order-independent; Python equality identifies
True with 1 and False with 0), and two Resources whose attribute dicts hold
the same typed pairs in any insertion orders are equal AND have equal hash
serializations.  (Equal Resources that differ in value type — True versus 1 —
need not share a hash, per the counterexample.) -/
theorem Resource.eq_hash_spec (a b : Resource)
    (hna : nodupKeys a.attributes) (hnb : nodupKeys b.attributes) :
    (Resource.beq a b = true ↔
      ∀ k, optValEq (dictGet? a.attributes k) (dictGet? b.attributes k) = true) ∧
    (a.attributes.Perm b.attributes →
      Resource.beq a b = true ∧ Resource.hashJson a = Resource.hashJson b) := by
  constructor
  · exact dictEqPy_iff a._attributes b._attributes hna hnb
  · intro hperm
    have h : ∀ k, dictGet? a._attributes k = dictGet? b._attributes k :=
      dictGet?_eq_of_perm hna hperm
    constructor
    · apply (dictEqPy_iff a._attributes b._attributes hna hnb).mpr
      intro k
      rw [h k]
      cases dictGet? b._attributes k with
      | none => rfl
      | some v => exact pyEqVal_refl v
    · exact dumps_congr a._attributes b._attributes hna hnb h

/-- Witness for C9: the same two pairs inserted in opposite orders give equal
resources with equal hash serializations. -/
theorem Resource.eq_hash_spec_witness :
    Resource.beq (Resource.mk [("a".toList, .vInt 1), ("b".toList, .vStr "x".toList)])
        (Resource.mk [("b".toList, .vStr "x".toList), ("a".toList, .vInt 1)]) = true ∧
    Resource.hashJson (Resource.mk [("a".toList, .vInt 1), ("b".toList, .vStr "x".toList)])
      = Resource.hashJson (Resource.mk [("b".toList, .vStr "x".toList), ("a".toList, .vInt 1)]) :=
  (Resource.eq_hash_spec
    (Resource.mk [("a".toList, .vInt 1), ("b".toList, .vStr "x".toList)])
    (Resource.mk [("b".toList, .vStr "x".toList), ("a".toList, .vInt 1)])
    (by decide) (by decide)).2 (List.Perm.swap _ _ _)

/- ----------------------------------------------------------------- -/
/- Heap model for the aliasing and copying behaviour of Resource     -/
/- ----------------------------------------------------------------- -/

/-- A heap of Python dict objects; an address is an index into the list. -/
abbrev Heap := List Attributes

/-- Read the dict object stored at an address. -/
def heapGet (h : Heap) (a : Nat) : Attributes := h.getD a []

/-- Allocate a new dict object, returning the new heap and its address. -/
def heapAlloc (h : Heap) (m : Attributes) : Heap × Nat := (h ++ [m], h.length)

/-- Execute the statement d[k] = v on the dict object at address a. -/
def heapAssign (h : Heap) (a : Nat) (k : PyStr) (v : LabelValue) : Heap :=
  h.set a (dictSet (heapGet h a) k v)

/-- Resource.__init__ in the heap model: self._attributes = attributes.copy()
allocates a fresh dict holding the same entries as the argument dict; the
returned address is the new resource's private dict. -/
def resourceInitH (h : Heap) (src : Nat) : Heap × Nat := heapAlloc h (heapGet h src)

/-- The attributes property in the heap model: return self._attributes.copy(),
a freshly allocated dict. -/
def attributesH (h : Heap) (res : Nat) : Heap × Nat := heapAlloc h (heapGet h res)

/-- One iteration of the merge loop acting on the merged dict object at
address tmp (the only object the loop ever writes). -/
def mergeStepH (tmp : Nat) (h : Heap) (kv : PyStr × LabelValue) : Heap :=
  match dictGet? (heapGet h tmp) kv.1 with
  | none => heapAssign h tmp kv.1 kv.2
  | some w => if pyEqVal w (.vStr []) then heapAssign h tmp kv.1 kv.2 else h

/-- Resource.merge in the heap model: merged_attributes = self.attributes
allocates a copy of self's dict; the loop then mutates only that copy while
iterating the items of other's dict; finally Resource(merged_attributes)
copies once more into the new resource's private dict. -/
def mergeH (h : Heap) (selfAddr otherAddr : Nat) : Heap × Nat :=
  let tmpPair := attributesH h selfAddr
  let h2 := (heapGet tmpPair.1 otherAddr).foldl (mergeStepH tmpPair.2) tmpPair.1
  resourceInitH h2 tmpPair.2

theorem heapGet_alloc_lt (h : Heap) (m : Attributes) (a : Nat)
    (ha : a < h.length) : heapGet (h ++ [m]) a = heapGet h a := by
  unfold heapGet
  simp [List.getD, List.getElem?_append, ha]

theorem heapGet_alloc_self (h : Heap) (m : Attributes) :
    heapGet (h ++ [m]) h.length = m := by
  unfold heapGet
  simp [List.getD, List.getElem?_concat_length]

theorem heapGet_assign_self (h : Heap) (a : Nat) (k : PyStr) (v : LabelValue)
    (ha : a < h.length) :
    heapGet (heapAssign h a k v) a = dictSet (heapGet h a) k v := by
  unfold heapAssign heapGet
  simp [List.getD, List.getElem?_set_self, ha]

theorem heapGet_assign_ne (h : Heap) (a b : Nat) (k : PyStr) (v : LabelValue)
    (hne : a ≠ b) : heapGet (heapAssign h a k v) b = heapGet h b := by
  unfold heapAssign heapGet
  simp [List.getD, List.getElem?_set_ne hne]

theorem heapAssign_length (h : Heap) (a : Nat) (k : PyStr) (v : LabelValue) :
    (heapAssign h a k v).length = h.length := by
  unfold heapAssign
  exact List.length_set h a _

theorem mergeStepH_frame (tmp : Nat) (h : Heap) (kv : PyStr × LabelValue)
    (b : Nat) (hne : b ≠ tmp) :
    heapGet (mergeStepH tmp h kv) b = heapGet h b := by
  unfold mergeStepH
  have hne' : tmp ≠ b := fun hh => hne hh.symm
  cases dictGet? (heapGet h tmp) kv.1 with
  | none => exact heapGet_assign_ne h tmp b kv.1 kv.2 hne'
  | some w =>
    by_cases hw : pyEqVal w (.vStr []) = true
    · simp only [hw, if_true]
      exact heapGet_assign_ne h tmp b kv.1 kv.2 hne'
    · simp only [hw]
      rfl

theorem mergeStepH_length (tmp : Nat) (h : Heap) (kv : PyStr × LabelValue) :
    (mergeStepH tmp h kv).length = h.length := by
  unfold mergeStepH
  cases dictGet? (heapGet h tmp) kv.1 with
  | none => exact heapAssign_length h tmp kv.1 kv.2
  | some w =>
    by_cases hw : pyEqVal w (.vStr []) = true
    · simp only [hw, if_true]
      exact heapAssign_length h tmp kv.1 kv.2
    · simp only [hw]
      rfl

theorem mergeFoldH_frame (items : List (PyStr × LabelValue)) (tmp : Nat) :
    ∀ (h : Heap) (b : Nat), b ≠ tmp →
    heapGet (items.foldl (mergeStepH tmp) h) b = heapGet h b := by
  induction items with
  | nil => intro h b _; rfl
  | cons kv rest ih =>
    intro h b hne
    rw [List.foldl_cons, ih (mergeStepH tmp h kv) b hne]
    exact mergeStepH_frame tmp h kv b hne

theorem mergeFoldH_length (items : List (PyStr × LabelValue)) (tmp : Nat) :
    ∀ (h : Heap), (items.foldl (mergeStepH tmp) h).length = h.length := by
  induction items with
  | nil => intro h; rfl
  | cons kv rest ih =>
    intro h
    rw [List.foldl_cons, ih (mergeStepH tmp h kv)]
    exact mergeStepH_length tmp h kv

theorem mergeFoldH_get_tmp (items : List (PyStr × LabelValue)) (tmp : Nat) :
    ∀ (h : Heap), tmp < h.length →
    heapGet (items.foldl (mergeStepH tmp) h) tmp
      = items.foldl mergeStep (heapGet h tmp) := by
  induction items with
  | nil => intro h _; rfl
  | cons kv rest ih =>
    intro h htmp
    rw [List.foldl_cons, List.foldl_cons]
    have hstep : heapGet (mergeStepH tmp h kv) tmp = mergeStep (heapGet h tmp) kv := by
      unfold mergeStepH mergeStep
      cases dictGet? (heapGet h tmp) kv.1 with
      | none => exact heapGet_assign_self h tmp kv.1 kv.2 htmp
      | some w =>
        by_cases hw : pyEqVal w (.vStr []) = true
        · simp only [hw, if_true]
          exact heapGet_assign_self h tmp kv.1 kv.2 htmp
        · simp only [hw]
          rfl
    rw [ih (mergeStepH tmp h kv) (by rw [mergeStepH_length]; exact htmp), hstep]

/-- C8: Resources are never mutated after construction.  In the heap model:
the constructor copies its argument dict into a fresh address, so mutating
the caller's dict afterwards never changes the resource; the attributes
accessor returns an equal but distinct dict, and mutating that copy never
changes the resource; and merge writes to neither operand — it only fills a
fresh dict, whose final contents equal the pure merge of the operands. -/
theorem Resource.immutability (h : Heap) (ra rb src : Nat)
    (k : PyStr) (v : LabelValue)
    (hra : ra < h.length) (hrb : rb < h.length) (hsrc : src < h.length) :
    ((resourceInitH h src).2 ≠ src ∧
     heapGet (heapAssign (resourceInitH h src).1 src k v) (resourceInitH h src).2
       = heapGet h src) ∧
    (heapGet (attributesH h ra).1 (attributesH h ra).2 = heapGet h ra ∧
     (attributesH h ra).2 ≠ ra ∧
     heapGet (heapAssign (attributesH h ra).1 (attributesH h ra).2 k v) ra
       = heapGet h ra) ∧
    (heapGet (mergeH h ra rb).1 ra = heapGet h ra ∧
     heapGet (mergeH h ra rb).1 rb = heapGet h rb ∧
     heapGet (mergeH h ra rb).1 (mergeH h ra rb).2
       = mergeAttrs (heapGet h ra) (heapGet h rb)) := by
  refine ⟨⟨?_, ?_⟩, ⟨?_, ?_, ?_⟩, ?_, ?_, ?_⟩
  · exact fun hh => absurd (hh ▸ hsrc) (Nat.lt_irrefl _)
  · show heapGet (heapAssign (h ++ [heapGet h src]) src k v) h.length = heapGet h src
    rw [heapGet_assign_ne _ src h.length k v (Nat.ne_of_lt hsrc)]
    exact heapGet_alloc_self h _
  · exact heapGet_alloc_self h _
  · exact fun hh => absurd (hh ▸ hra) (Nat.lt_irrefl _)
  · show heapGet (heapAssign (h ++ [heapGet h ra]) h.length k v) ra = heapGet h ra
    rw [heapGet_assign_ne _ h.length ra k v (Nat.ne_of_gt hra)]
    exact heapGet_alloc_lt h _ ra hra
  · show heapGet (resourceInitH ((heapGet (h ++ [heapGet h ra]) rb).foldl
        (mergeStepH h.length) (h ++ [heapGet h ra])) h.length).1 ra = heapGet h ra
    unfold resourceInitH heapAlloc
    rw [heapGet_alloc_lt]
    · rw [mergeFoldH_frame _ h.length _ ra (Nat.ne_of_lt hra)]
      exact heapGet_alloc_lt h _ ra hra
    · rw [mergeFoldH_length]
      rw [List.length_append]
      simp only [List.length_cons, List.length_nil]
      omega
  · show heapGet (resourceInitH ((heapGet (h ++ [heapGet h ra]) rb).foldl
        (mergeStepH h.length) (h ++ [heapGet h ra])) h.length).1 rb = heapGet h rb
    unfold resourceInitH heapAlloc
    rw [heapGet_alloc_lt]
    · rw [mergeFoldH_frame _ h.length _ rb (Nat.ne_of_lt hrb)]
      exact heapGet_alloc_lt h _ rb hrb
    · rw [mergeFoldH_length]
      rw [List.length_append]
      simp only [List.length_cons, List.length_nil]
      omega
  · show heapGet (resourceInitH ((heapGet (h ++ [heapGet h ra]) rb).foldl
        (mergeStepH h.length) (h ++ [heapGet h ra])) h.length).1
      (resourceInitH ((heapGet (h ++ [heapGet h ra]) rb).foldl
        (mergeStepH h.length) (h ++ [heapGet h ra])) h.length).2
      = mergeAttrs (heapGet h ra) (heapGet h rb)
    unfold resourceInitH heapAlloc
    rw [heapGet_alloc_self]
    have htmp : h.length < (h ++ [heapGet h ra]).length := by
      rw [List.length_append]
      simp only [List.length_cons, List.length_nil]
      omega
    rw [mergeFoldH_get_tmp _ h.length _ htmp]
    rw [heapGet_alloc_self h (heapGet h ra), heapGet_alloc_lt h _ rb hrb]
    rfl

/-- Witness for C8: merge on a concrete two-resource heap fills the fresh
dict with the pure merge of the operands. -/
theorem Resource.immutability_witness :
    heapGet (mergeH [[("x".toList, LabelValue.vStr [])],
        [("x".toList, LabelValue.vStr "y".toList)]] 0 1).1
      (mergeH [[("x".toList, LabelValue.vStr [])],
        [("x".toList, LabelValue.vStr "y".toList)]] 0 1).2
      = mergeAttrs
        (heapGet [[("x".toList, LabelValue.vStr [])],
          [("x".toList, LabelValue.vStr "y".toList)]] 0)
        (heapGet [[("x".toList, LabelValue.vStr [])],
          [("x".toList, LabelValue.vStr "y".toList)]] 1) :=
  (Resource.immutability [[("x".toList, LabelValue.vStr [])],
      [("x".toList, LabelValue.vStr "y".toList)]] 0 1 0 "k".toList (.vInt 5)
    (by decide) (by decide) (by decide)).2.2.2.2
